import Mathlib

/-!
Verification of the label-hierarchy and few-shot dataset core of
`few_shot_dataset.py` (classes `LabelHierarchy`, `FewShotDataset` and the
module-level helper `build_label_hierarchy`).

The Python code is embedded shallowly:
* Python `dict` (insertion ordered) becomes an association list
  `List (String × LabelNode)`;
* Python `set` of email ids becomes a duplicate-free `List String` that is
  grown with `setUnion` (membership is what the properties quantify over);
* Python exceptions become `Except String`;
* the unbounded `while` loop of `get_path_to_root` becomes a fuel-indexed
  loop returning `none` when the fuel runs out (so genuine divergence of the
  Python loop shows up as `none` at every fuel);
* the `tiktoken` token counter is an external collaborator and is passed in
  as an arbitrary function `String → Nat`;
* `random.shuffle` / `random.sample` outcomes are passed in explicitly, and
  theorems quantify over them.
-/

/-- Python `str.split(sep)` for a one-character separator: split on every
occurrence of the separator keeping empty pieces, so that
`"a__b".split('_') == ["a", "", "b"]` and `"".split('_') == [""]`. -/
def splitCharAux (sep : Char) : List Char → List Char → List String
  | [], acc => [String.mk acc.reverse]
  | c :: cs, acc =>
    if c = sep then String.mk acc.reverse :: splitCharAux sep cs []
    else splitCharAux sep cs (c :: acc)

/-- Python `s.split(sep)` with a one-character separator. -/
def splitChar (sep : Char) (s : String) : List String :=
  splitCharAux sep s.data []

/-- Python `sep.join(parts)`. -/
def joinSep (sep : String) : List String → String
  | [] => ""
  | [x] => x
  | x :: y :: xs => x ++ sep ++ joinSep sep (y :: xs)

/-- Python `os.path.basename` on POSIX paths: the part after the last slash. -/
def pyBasename (f : String) : String :=
  (splitChar '/' f).getLastD ""

/-- Python `part.split('.')[0]`: drop the first dot and everything after it. -/
def stripExt (s : String) : String :=
  (splitChar '.' s).headD ""

/-- Model of the pydantic `LabelNode`: name, optional parent name, child-name
list and the set of associated email ids (modelled as a list). -/
structure LabelNode where
  name : String
  parent : Option String
  children : List String
  email_ids : List String
deriving DecidableEq, Repr

/-- Model of `LabelHierarchy.__init__`: the insertion-ordered map from label
name to node, plus the ordered list of root labels. -/
structure LabelHierarchy where
  nodes : List (String × LabelNode)
  root_labels : List String
deriving DecidableEq, Repr

deriving instance DecidableEq for Except

/-- The fixed set `self.single_labels` of labels that are never decomposed. -/
def single_labels : List String := ["good_material", "daily_news"]

def emptyHierarchy : LabelHierarchy := ⟨[], []⟩

/-- Python `self.nodes[name]` as a total lookup. -/
def lookupNode (h : LabelHierarchy) (name : String) : Option LabelNode :=
  (h.nodes.find? (fun p => p.1 = name)).map (·.2)

/-- Python `name in self.nodes`. -/
def hasNode (h : LabelHierarchy) (name : String) : Bool :=
  (lookupNode h name).isSome

/-- Python `self.nodes[name] = node` for a name that is not present yet
(insertion-ordered dict append). -/
def insertNode (h : LabelHierarchy) (name : String) (n : LabelNode) : LabelHierarchy :=
  { h with nodes := h.nodes ++ [(name, n)] }

/-- In-place mutation of the node stored under `name`. -/
def updateNode (h : LabelHierarchy) (name : String) (f : LabelNode → LabelNode) : LabelHierarchy :=
  { h with nodes := h.nodes.map (fun p => if p.1 = name then (p.1, f p.2) else p) }

/-- Python `set.update`: add each id that is not already present, keeping the
list duplicate free when the input list was. -/
def setUnion (s : List String) (ids : List String) : List String :=
  ids.foldl (fun acc i => if i ∈ acc then acc else acc ++ [i]) s

/-- Truthiness of an `Optional[str]` in Python: `None` and `""` are falsy.
Both `if current_parent:` and `while current.parent:` use this test. -/
def optTruthy : Option String → Option String
  | some s => if s = "" then none else some s
  | none => none

/-- The digit-prefix filter of `add_label_from_filename` (lines 42-45):
keep the parts whose first character is not a digit; indexing `part[0]` on an
empty part raises `IndexError`. -/
def labelPartsOf : List String → Except String (List String)
  | [] => .ok []
  | p :: rest =>
    match p.data with
    | [] => .error "IndexError: string index out of range"
    | c :: _ =>
      match labelPartsOf rest with
      | .error e => .error e
      | .ok l => .ok (if c.isDigit then l else p :: l)

/-- `'_'.join(label_parts[:2]).split('.')[0]` (line 48). -/
def combinedLabel (label_parts : List String) : String :=
  stripExt (joinSep "_" (label_parts.take 2))

/-- State of the per-part loop of `add_label_from_filename` (lines 62-87). -/
structure AddState where
  h : LabelHierarchy
  current_parent : Option String
  current_path : List String

/-- Union `email_ids` into the node stored under `lbl` (line 85). -/
def emailUpd (ids : List String) (h : LabelHierarchy) (lbl : String) : LabelHierarchy :=
  updateNode h lbl (fun n => { n with email_ids := setUnion n.email_ids ids })

/-- The node created at line 69 for a not-yet-registered label part. -/
def newNode (st : AddState) (clean_part : String) : LabelNode :=
  ⟨clean_part, st.current_parent, [], []⟩

/-- Lines 68-80 of the per-part loop: create the node if absent, and register
it in its parent's child list or in the root-label list (note that
`insertNode` leaves `root_labels` unchanged, so `hIns.root_labels` of the
Python code is `st.h.root_labels`). -/
def addPartH1 (st : AddState) (clean_part : String) : LabelHierarchy :=
  if hasNode st.h clean_part then st.h
  else
    match optTruthy st.current_parent with
    | some cp =>
      updateNode (insertNode st.h clean_part (newNode st clean_part)) cp
        (fun n =>
          if clean_part ∈ n.children then n
          else { n with children := n.children ++ [clean_part] })
    | none =>
      if clean_part ∈ st.h.root_labels then
        insertNode st.h clean_part (newNode st clean_part)
      else
        { insertNode st.h clean_part (newNode st clean_part) with
          root_labels := st.h.root_labels ++ [clean_part] }

/-- One iteration of the `for part in label_parts` loop (lines 64-87):
register the cleaned part, then union the email ids into every node along
the extended current path. -/
def addPart (ids : List String) (st : AddState) (part : String) : AddState :=
  ⟨(st.current_path ++ [stripExt part]).foldl (emailUpd ids)
      (addPartH1 st (stripExt part)),
   some (stripExt part),
   st.current_path ++ [stripExt part]⟩

/-- `LabelHierarchy.add_label_from_filename` (lines 36-87). -/
def addLabelFromFilename (h : LabelHierarchy) (filename : String)
    (email_ids : List String) : Except String LabelHierarchy :=
  match labelPartsOf (splitChar '_' (pyBasename filename)) with
  | .error e => .error e
  | .ok label_parts =>
    if combinedLabel label_parts ∈ single_labels then
      if hasNode h (combinedLabel label_parts) then
        .ok (updateNode h (combinedLabel label_parts)
          (fun n => { n with email_ids := setUnion n.email_ids email_ids }))
      else
        .ok { insertNode h (combinedLabel label_parts)
                ⟨combinedLabel label_parts, none, [], setUnion [] email_ids⟩ with
              root_labels := h.root_labels ++ [combinedLabel label_parts] }
    else
      .ok (label_parts.foldl (addPart email_ids) ⟨h, none, []⟩).h

/-- `build_label_hierarchy` (lines 319-338): fold the files over an empty
hierarchy; a file whose processing raises is reported and skipped, leaving
the hierarchy as it was (the only raise in `add_label_from_filename` happens
before any mutation). -/
def buildHierarchy (ops : List (String × List String)) : LabelHierarchy :=
  ops.foldl
    (fun h op =>
      match addLabelFromFilename h op.1 op.2 with
      | .ok h2 => h2
      | .error _ => h)
    emptyHierarchy

/-- The `while current.parent:` walk of `get_path_to_root` (lines 93-98),
with fuel. `none` means the fuel ran out (the Python loop is still running),
`some (.error ())` models the `KeyError` of `self.nodes[current.parent]` on a
dangling parent, `some (.ok r)` is a normal return of `list(reversed(path))`. -/
def getPathLoop (h : LabelHierarchy) : Nat → String → List String →
    Option (Except Unit (List String))
  | 0, _, _ => none
  | fuel + 1, curName, path =>
    match lookupNode h curName with
    | none => some (.error ())
    | some cur =>
      match optTruthy cur.parent with
      | none => some (.ok path.reverse)
      | some p => getPathLoop h fuel p (path ++ [p])

/-- `LabelHierarchy.get_path_to_root` (lines 89-98) with fuel. -/
def getPathToRootFuel (h : LabelHierarchy) (label : String) (fuel : Nat) :
    Option (Except Unit (List String)) :=
  if hasNode h label then getPathLoop h fuel label [label]
  else some (.ok [])

/-- The Python call `get_path_to_root(label)` returns (with any outcome,
normal or exceptional) after finitely many loop iterations. -/
def Terminates (h : LabelHierarchy) (label : String) : Prop :=
  ∃ fuel, (getPathToRootFuel h label fuel).isSome

/-- `a` is the (truthy) parent of `b` in the hierarchy. -/
def parentOf (h : LabelHierarchy) (a b : String) : Prop :=
  ∃ n, lookupNode h b = some n ∧ optTruthy n.parent = some a

/-- `r` is a root-first path of the hierarchy ending at `label`: the last
element is `label`, the first element is a node whose parent link is falsy,
and each element is the parent of the next. -/
def IsRootPath (h : LabelHierarchy) (label : String) (r : List String) : Prop :=
  r.getLast? = some label ∧
  (∀ x ∈ r.head?, ∃ n, lookupNode h x = some n ∧ optTruthy n.parent = none) ∧
  List.Chain' (parentOf h) r

/-- Enough fuel for any walk over an acyclic hierarchy. -/
def defaultFuel (h : LabelHierarchy) : Nat := h.nodes.length + 1

/-- `get_path_to_root` with the default fuel, in the `Except`-only form used
by the composed pipeline: fuel exhaustion becomes an error as well. -/
def getPathE (h : LabelHierarchy) (label : String) : Except String (List String) :=
  match getPathToRootFuel h label (defaultFuel h) with
  | none => .error "nonterminating parent walk"
  | some (.error _) => .error "KeyError"
  | some (.ok r) => .ok r

/-- The ancestor loop of `get_all_paths_for_email` (lines 116-121), with
fuel: starting from the node named `curName`, while it has a truthy parent,
append the parent's root path (when nonempty and new) and climb. -/
def ancLoop (h : LabelHierarchy) : Nat → String → List (List String) →
    Except String (List (List String))
  | 0, _, _ => .error "nonterminating parent walk"
  | fuel + 1, curName, paths =>
    match lookupNode h curName with
    | none => .error "KeyError"
    | some cur =>
      match optTruthy cur.parent with
      | none => .ok paths
      | some p =>
        match getPathE h p with
        | .error e => .error e
        | .ok pp =>
          let paths2 := if pp ≠ [] ∧ pp ∉ paths then paths ++ [pp] else paths
          ancLoop h fuel p paths2

/-- `LabelHierarchy.get_all_paths_for_email` (lines 100-123). -/
def getAllPathsForEmail (h : LabelHierarchy) (email_id : String) :
    Except String (List (List String)) :=
  let labels_with_email :=
    (h.nodes.filter (fun p => p.2.email_ids.contains email_id)).map (·.1)
  labels_with_email.foldlM
    (fun paths label => do
      let path ← getPathE h label
      if path ≠ [] ∧ path ∉ paths then
        ancLoop h (defaultFuel h) label (paths ++ [path])
      else
        pure paths)
    []

/-- Model of the pydantic `FewShotExample`. -/
structure FewShotExample where
  content : String
  labels : List String
  label_paths : List (List String)
deriving DecidableEq, Repr

/-- The per-label lines of `format_example` (lines 280-284): Python `zip`
walks the two lists in lockstep and stops at the shorter one. -/
def labelLines (ex : FewShotExample) : List String :=
  (ex.labels.zip ex.label_paths).map (fun lp =>
    if lp.1 ∈ single_labels then "- " ++ lp.1 ++ "\n"
    else "- " ++ joinSep " -> " lp.2 ++ "\n")

/-- `FewShotDataset.format_example` (lines 276-285). -/
def formatExample (ex : FewShotExample) : String :=
  "Content: " ++ ex.content ++ "\n" ++ "Labels:\n" ++
    joinSep "" (labelLines ex)

/-- The configured budget `self.MAX_TOKENS` (line 144). -/
def MAX_TOKENS : Nat := 32000

/-- The preamble string counted at line 210 and emitted at line 302. -/
def promptPreamble : String :=
  "Here are some examples of content and their hierarchical labels:\n\n"

/-- The postamble string counted (with a leading newline) at line 211. -/
def examplesPostamble : String :=
  "\nNow, please analyze the following content and assign appropriate hierarchical labels:\n\n"

/-- The postamble string emitted by `generate_prompt` at line 314. -/
def promptPostamble : String :=
  "Now, please analyze the following content and assign appropriate hierarchical labels:\n\n"

/-- The candidate pool built for one label by the first pass of
`generate_examples` (lines 170-196): scan the label's email ids in order,
skip ids that are absent from the analyzed map or have empty content, build
the example from all hierarchical paths of the email, and keep it when its
rendered token cost is at most half the budget. `analyzed` maps an email id
to its `post_content_en` field. -/
def buildPoolForNode (countF : String → Nat) (maxT : Nat) (h : LabelHierarchy)
    (analyzed : List (String × String)) (node : LabelNode) :
    Except String (List (FewShotExample × Nat)) :=
  node.email_ids.foldlM
    (fun acc eid =>
      match analyzed.find? (fun p => p.1 = eid) with
      | none => pure acc
      | some rec2 =>
        if rec2.2 = "" then pure acc
        else do
          let label_paths ← getAllPathsForEmail h eid
          let labels := (label_paths.map (fun p => p.getLastD "")).dedup
          let ex : FewShotExample := ⟨rec2.2, labels, label_paths⟩
          let tokens := countF (formatExample ex)
          if tokens ≤ maxT / 2 then pure (acc ++ [(ex, tokens)]) else pure acc)
    []

/-- The full first pass: one candidate pool per label, in node order. -/
def buildPools (countF : String → Nat) (maxT : Nat) (h : LabelHierarchy)
    (analyzed : List (String × String)) :
    Except String (List (String × List (FewShotExample × Nat))) :=
  h.nodes.foldlM
    (fun acc p => do
      let pool ← buildPoolForNode countF maxT h analyzed p.2
      pure (acc ++ [(p.1, pool)]))
    []

/-- Lines 199-205: when no maximum is supplied, use
`max(min_examples_per_label, min(pool sizes))`; Python `min()` of an empty
sequence raises `ValueError`. -/
def computeMaxE (minE : Nat) (maxEOpt : Option Nat)
    (pools : List (String × List (FewShotExample × Nat))) : Except String Nat :=
  match maxEOpt with
  | some m => .ok m
  | none =>
    match pools.map (fun p => p.2.length) with
    | [] => .error "ValueError: min() arg is an empty sequence"
    | n :: ns => .ok (max minE (ns.foldl Nat.min n))

/-- Stable insertion of `x` into an ascending list (by key). -/
def insertByKey (key : String → Nat) (x : String) : List String → List String
  | [] => [x]
  | y :: ys => if key x < key y then x :: y :: ys else y :: insertByKey key x ys

/-- Lines 214-217: Python `sorted(labels, key=pool size)` — a stable
ascending sort, modelled by insertion sort. -/
def sortLabels (key : String → Nat) (ls : List String) : List String :=
  ls.foldl (fun acc l => insertByKey key l acc) []

/-- The running state of the second pass of `generate_examples`: the chosen
examples (kept with their token cost, so that the theorems can speak about
the cost sum), the `examples_added` content set, and `total_tokens`. -/
structure SelState where
  picked : List (FewShotExample × Nat)
  added : List String
  total : Nat
deriving DecidableEq, Repr

/-- `self.examples`: the chosen examples without their recorded costs. -/
def SelState.examples (st : SelState) : List FewShotExample :=
  st.picked.map (·.1)

/-- The candidate loop shared by lines 232-246 and lines 254-268: walk the
pool; stop when `cnt` reaches `bound` or when adding the next candidate
would push `total` over `maxT`; skip candidates whose content was already
added; otherwise append the example, record its content and cost. -/
def selectLoop (maxT bound : Nat) : List (FewShotExample × Nat) → Nat →
    SelState → SelState
  | [], _, st => st
  | (ex, tk) :: rest, cnt, st =>
    if bound ≤ cnt then st
    else if maxT < st.total + tk then st
    else if ex.content ∈ st.added then selectLoop maxT bound rest cnt st
    else selectLoop maxT bound rest (cnt + 1)
      ⟨st.picked ++ [(ex, tk)], st.added ++ [ex.content], st.total + tk⟩

/-- `sum(1 for ex in self.examples if label in ex.labels)` (line 252). -/
def countLabel (st : SelState) (label : String) : Nat :=
  (st.examples.filter (fun ex => ex.labels.contains label)).length

/-- The second pass of `generate_examples` (lines 207-268) given the
already-shuffled pools, the label processing order and the pre-charged
overhead `initTotal`: ensure the per-label minimum scarcest-first, then, if
the total is still strictly under budget, top each label up to the maximum. -/
def selectPass1 (maxT minE initTotal : Nat)
    (pools : String → List (FewShotExample × Nat)) (order : List String) :
    SelState :=
  order.foldl (fun st l => selectLoop maxT minE (pools l) 0 st) ⟨[], [], initTotal⟩

def selectExamples (maxT minE maxE initTotal : Nat)
    (pools : String → List (FewShotExample × Nat)) (order : List String) :
    SelState :=
  if (selectPass1 maxT minE initTotal pools order).total < maxT then
    order.foldl (fun st l => selectLoop maxT maxE (pools l) (countLabel st l) st)
      (selectPass1 maxT minE initTotal pools order)
  else selectPass1 maxT minE initTotal pools order

/-- `FewShotDataset.generate_examples` (lines 155-268) end to end. The
random shuffle of each pool (lines 226-228) is supplied as `shuffle`
(theorems quantify over it); the tokenizer is `countF`. -/
def generateExamples (countF : String → Nat)
    (shuffle : String → List (FewShotExample × Nat) → List (FewShotExample × Nat))
    (h : LabelHierarchy) (analyzed : List (String × String))
    (minE : Nat) (maxEOpt : Option Nat) : Except String SelState := do
  let pools ← buildPools countF MAX_TOKENS h analyzed
  let maxE ← computeMaxE minE maxEOpt pools
  let shuffled := pools.map (fun p => (p.1, shuffle p.1 p.2))
  let poolFun := fun l => (((shuffled.find? (fun p => p.1 = l)).map (·.2)).getD [])
  let order := sortLabels (fun l => (poolFun l).length) (shuffled.map (·.1))
  let initTotal := countF promptPreamble + countF examplesPostamble
  pure (selectExamples MAX_TOKENS minE maxE initTotal poolFun order)

/-- The example-appending loop of `generate_prompt` (lines 305-312): add each
sampled example's rendering plus the separator, stopping as soon as the next
one would push the running total over `maxT`. Returns the prompt so far and
the running total. -/
def promptLoop (countF : String → Nat) (maxT : Nat) :
    List FewShotExample → String → Nat → String × Nat
  | [], prompt, total => (prompt, total)
  | ex :: rest, prompt, total =>
    let t := formatExample ex ++ "\n---\n\n"
    let tk := countF t
    if maxT < total + tk then (prompt, total)
    else promptLoop countF maxT rest (prompt ++ t) (total + tk)

/-- Line 293-295: clamp the requested example count to the available count. -/
def clampNum (available num : Nat) : Nat :=
  if available < num then available else num

/-- `sampled` is a possible outcome of `random.sample(examples, k)`:
`k` elements of `examples`, without replacement, in some order. -/
def IsSampleOf (examples : List FewShotExample) (k : Nat)
    (sampled : List FewShotExample) : Prop :=
  sampled.length = k ∧ List.Subperm sampled examples

/-- `FewShotDataset.generate_prompt` (lines 287-317): fail when no examples
were generated; clamp the requested count to the available count (lines
292-295); draw `random.sample(self.examples, clamped)` — modelled by the
oracle `sample`, which maps the clamped count to the drawn list and is
constrained by `IsSampleOf` in the theorems; then emit the preamble, the
budget-guarded sampled examples, and finally — with no budget check — the
postamble. -/
def generatePrompt (countF : String → Nat) (maxT : Nat)
    (examples : List FewShotExample) (num : Nat)
    (sample : Nat → List FewShotExample) : Except String String :=
  if examples.isEmpty then
    .error "No examples generated. Call generate_examples() first."
  else
    .ok ((promptLoop countF maxT (sample (clampNum examples.length num))
        promptPreamble (countF promptPreamble)).1 ++ promptPostamble)

/-! ## General lemmas about the selection loop -/

theorem foldl_preserve {α β : Type _} (P : α → Prop) (f : α → β → α)
    (hf : ∀ a b, P a → P (f a b)) :
    ∀ (l : List β) (a : α), P a → P (l.foldl f a) := by
  intro l
  induction l with
  | nil => intro a ha; exact ha
  | cons b bs ih => intro a ha; exact ih (f a b) (hf a b ha)

/-- `selectLoop` only appends: the result state is the input state with a
block of new picks appended in lockstep to `picked`, `added` and `total`,
and every new pick's content comes from the processed pool. -/
theorem selectLoop_spec (maxT b : Nat) (pool : List (FewShotExample × Nat)) :
    ∀ (cnt : Nat) (st : SelState),
    ∃ new, selectLoop maxT b pool cnt st =
        ⟨st.picked ++ new, st.added ++ new.map (fun q => q.1.content),
          st.total + (new.map (fun q => q.2)).sum⟩ ∧
      (∀ q ∈ new, q.1.content ∈ pool.map (fun q2 => q2.1.content)) ∧
      new.Sublist pool := by
  induction pool with
  | nil =>
    intro cnt st
    exact ⟨[], by simp [selectLoop], by simp, List.nil_sublist _⟩
  | cons head rest ih =>
    intro cnt st
    obtain ⟨ex, tk⟩ := head
    by_cases h1 : b ≤ cnt
    · exact ⟨[], by simp [selectLoop, h1], by simp, List.nil_sublist _⟩
    · by_cases h2 : maxT < st.total + tk
      · exact ⟨[], by simp [selectLoop, h1, h2], by simp, List.nil_sublist _⟩
      · by_cases h3 : ex.content ∈ st.added
        · obtain ⟨new, heq, hmem, hsub⟩ := ih cnt st
          refine ⟨new, by simp [selectLoop, h1, h2, h3, heq], ?_, List.Sublist.cons _ hsub⟩
          intro q hq
          exact List.mem_cons_of_mem _ (hmem q hq)
        · obtain ⟨new, heq, hmem, hsub⟩ :=
            ih (cnt + 1) ⟨st.picked ++ [(ex, tk)], st.added ++ [ex.content], st.total + tk⟩
          refine ⟨(ex, tk) :: new, ?_, ?_, List.Sublist.cons₂ _ hsub⟩
          · simp only [selectLoop, if_neg h1, if_neg h2, if_neg h3, heq]
            simp [Nat.add_assoc]
          · intro q hq
            rcases List.mem_cons.mp hq with hq | hq
            · subst hq; exact List.mem_cons_self _ _
            · exact List.mem_cons_of_mem _ (hmem q hq)

/-- The running total never exceeds the budget once it is within it:
the loop's guard refuses any addition that would overflow. -/
theorem selectLoop_total_le (maxT b : Nat) (pool : List (FewShotExample × Nat)) :
    ∀ (cnt : Nat) (st : SelState), st.total ≤ maxT →
      (selectLoop maxT b pool cnt st).total ≤ maxT := by
  induction pool with
  | nil => intro cnt st h; simpa [selectLoop] using h
  | cons head rest ih =>
    intro cnt st h
    obtain ⟨ex, tk⟩ := head
    by_cases h1 : b ≤ cnt
    · simpa [selectLoop, h1] using h
    · by_cases h2 : maxT < st.total + tk
      · simpa [selectLoop, h1, h2] using h
      · by_cases h3 : ex.content ∈ st.added
        · simp only [selectLoop, if_neg h1, if_neg h2, if_pos h3]
          exact ih cnt st h
        · simp only [selectLoop, if_neg h1, if_neg h2, if_neg h3]
          exact ih (cnt + 1) _ (Nat.le_of_not_lt h2)

/-- The dedup invariant: `added` is exactly the content list of `picked`,
and it stays duplicate free. -/
def DedupInv (st : SelState) : Prop :=
  st.added = st.picked.map (fun q => q.1.content) ∧ st.added.Nodup

theorem selectLoop_dedup (maxT b : Nat) (pool : List (FewShotExample × Nat)) :
    ∀ (cnt : Nat) (st : SelState), DedupInv st →
      DedupInv (selectLoop maxT b pool cnt st) := by
  induction pool with
  | nil => intro cnt st h; simpa [selectLoop] using h
  | cons head rest ih =>
    intro cnt st h
    obtain ⟨ex, tk⟩ := head
    by_cases h1 : b ≤ cnt
    · simpa [selectLoop, h1] using h
    · by_cases h2 : maxT < st.total + tk
      · simpa [selectLoop, h1, h2] using h
      · by_cases h3 : ex.content ∈ st.added
        · simp only [selectLoop, if_neg h1, if_neg h2, if_pos h3]
          exact ih cnt st h
        · simp only [selectLoop, if_neg h1, if_neg h2, if_neg h3]
          refine ih (cnt + 1) _ ⟨?_, ?_⟩
          · simp [h.1]
          · simp only [List.nodup_append, List.nodup_cons, List.nodup_nil]
            exact ⟨h.2, by simp, by simp [h3]⟩

/-- The budget invariant threaded through both passes of the selector. -/
def BudgetInv (initTotal maxT : Nat) (st : SelState) : Prop :=
  st.total = initTotal + (st.picked.map (fun q => q.2)).sum ∧ st.total ≤ maxT

theorem selectLoop_budget (initTotal maxT b : Nat)
    (pool : List (FewShotExample × Nat)) (cnt : Nat) (st : SelState)
    (h : BudgetInv initTotal maxT st) :
    BudgetInv initTotal maxT (selectLoop maxT b pool cnt st) := by
  obtain ⟨new, heq, -, -⟩ := selectLoop_spec maxT b pool cnt st
  constructor
  · rw [heq]
    simp [h.1, Nat.add_assoc]
  · exact selectLoop_total_le maxT b pool cnt st h.2

/-- Claim C4 — for every run of the selection passes (any pools, any label
processing order, any minimum/maximum, and hence any shuffle outcome), the
pre-charged overhead plus the sum of the token costs of the selected
examples never exceeds the configured budget. -/
theorem c4_budget_bound (maxT minE maxE initTotal : Nat)
    (pools : String → List (FewShotExample × Nat)) (order : List String)
    (hinit : initTotal ≤ maxT) :
    initTotal +
      (((selectExamples maxT minE maxE initTotal pools order).picked).map
        (fun q => q.2)).sum ≤ maxT := by
  have h0 : BudgetInv initTotal maxT ⟨[], [], initTotal⟩ := by
    constructor <;> simp [hinit]
  have h1 : BudgetInv initTotal maxT (selectPass1 maxT minE initTotal pools order) :=
    foldl_preserve _ _ (fun st l hst => selectLoop_budget initTotal maxT minE (pools l) 0 st hst)
      order _ h0
  have h2 : BudgetInv initTotal maxT (selectExamples maxT minE maxE initTotal pools order) := by
    unfold selectExamples
    split
    · exact foldl_preserve _ _
        (fun st l hst => selectLoop_budget initTotal maxT maxE (pools l) (countLabel st l) st hst)
        order _ h1
    · exact h1
  calc initTotal + (((selectExamples maxT minE maxE initTotal pools order).picked).map
        (fun q => q.2)).sum
      = (selectExamples maxT minE maxE initTotal pools order).total := h2.1.symm
    _ ≤ maxT := h2.2

theorem c4_witness :
    (10 : Nat) ≤ 100 ∧
    10 + (((selectExamples 100 1 1 10 (fun _ => [(⟨"x", ["A"], [["A"]]⟩, 3)]) ["A"]).picked).map
      (fun q => q.2)).sum ≤ 100 :=
  ⟨by decide,
   c4_budget_bound 100 1 1 10 (fun _ => [(⟨"x", ["A"], [["A"]]⟩, 3)]) ["A"] (by decide)⟩

/-- Both selection passes preserve the dedup invariant from the empty
starting state. -/
theorem dedupInv_selectExamples (maxT minE maxE initTotal : Nat)
    (pools : String → List (FewShotExample × Nat)) (order : List String) :
    DedupInv (selectExamples maxT minE maxE initTotal pools order) := by
  have h0 : DedupInv ⟨[], [], initTotal⟩ := by constructor <;> simp
  have h1 : DedupInv (selectPass1 maxT minE initTotal pools order) :=
    foldl_preserve _ _ (fun st l hst => selectLoop_dedup maxT minE (pools l) 0 st hst)
      order _ h0
  unfold selectExamples
  split
  · exact foldl_preserve _ _
      (fun st l hst => selectLoop_dedup maxT maxE (pools l) (countLabel st l) st hst)
      order _ h1
  · exact h1

/-- Claim C5 — for every run of the selection passes and any shuffle
outcome, no two selected examples share the same content text. -/
theorem c5_contents_distinct (maxT minE maxE initTotal : Nat)
    (pools : String → List (FewShotExample × Nat)) (order : List String) :
    ((selectExamples maxT minE maxE initTotal pools order).examples).Pairwise
      (fun a b => a.content ≠ b.content) := by
  have h2 := dedupInv_selectExamples maxT minE maxE initTotal pools order
  have hmap : ((selectExamples maxT minE maxE initTotal pools order).examples).map
      (fun e => e.content) =
      (selectExamples maxT minE maxE initTotal pools order).added := by
    rw [h2.1]
    simp [SelState.examples]
  have hnd := h2.2
  rw [← hmap] at hnd
  have := (List.pairwise_map).mp hnd
  exact this.imp (fun hab => hab)

/-! ## Claim C6: per-label minimum representation -/

/-- When the whole pool fits in the remaining budget, the candidate loop
either performs at least `b - cnt` additions taken from the pool, or it
walks the entire pool, leaving every pool content registered in `added`. -/
theorem selectLoop_cover (maxT b : Nat) :
    ∀ (pool : List (FewShotExample × Nat)) (cnt : Nat) (st : SelState),
      st.total + (pool.map (fun q => q.2)).sum ≤ maxT →
      (∃ new, (selectLoop maxT b pool cnt st).picked = st.picked ++ new ∧
        (∀ q ∈ new, q.1.content ∈ pool.map (fun q2 => q2.1.content)) ∧
        b ≤ cnt + new.length) ∨
      (∀ c ∈ pool.map (fun q => q.1.content),
        c ∈ (selectLoop maxT b pool cnt st).added) := by
  intro pool
  induction pool with
  | nil =>
    intro cnt st hbud
    right
    intro c hc
    simp at hc
  | cons head rest ih =>
    intro cnt st hbud
    obtain ⟨ex, tk⟩ := head
    have hsum : st.total + (tk + (rest.map (fun q => q.2)).sum) ≤ maxT := by
      simpa using hbud
    by_cases h1 : b ≤ cnt
    · left
      exact ⟨[], by simp [selectLoop, h1], by simp, by simpa using h1⟩
    · have h2 : ¬ maxT < st.total + tk := by omega
      by_cases h3 : ex.content ∈ st.added
      · have hstep : selectLoop maxT b ((ex, tk) :: rest) cnt st =
            selectLoop maxT b rest cnt st := by
          simp [selectLoop, h1, h2, h3]
        rw [hstep]
        rcases ih cnt st (by omega) with ⟨new, hpk, hmem, hcnt⟩ | hcov
        · left
          exact ⟨new, hpk, fun q hq => List.mem_cons_of_mem _ (hmem q hq), hcnt⟩
        · right
          intro c hc
          rcases List.mem_cons.mp hc with hc | hc
          · subst hc
            obtain ⟨new2, heq2, -, -⟩ := selectLoop_spec maxT b rest cnt st
            rw [heq2]
            exact List.mem_append_left _ h3
          · exact hcov c hc
      · have hstep : selectLoop maxT b ((ex, tk) :: rest) cnt st =
            selectLoop maxT b rest (cnt + 1)
              ⟨st.picked ++ [(ex, tk)], st.added ++ [ex.content], st.total + tk⟩ := by
          simp [selectLoop, h1, h2, h3]
        rw [hstep]
        rcases ih (cnt + 1) ⟨st.picked ++ [(ex, tk)], st.added ++ [ex.content],
            st.total + tk⟩
            (by show st.total + tk + (rest.map (fun q => q.2)).sum ≤ maxT; omega)
          with ⟨new, hpk, hmem, hcnt⟩ | hcov
        · left
          refine ⟨(ex, tk) :: new, ?_, ?_, ?_⟩
          · rw [hpk]
            simp
          · intro q hq
            rcases List.mem_cons.mp hq with hq | hq
            · subst hq; exact List.mem_cons_self _ _
            · exact List.mem_cons_of_mem _ (hmem q hq)
          · simp only [List.length_cons]
            omega
        · right
          intro c hc
          rcases List.mem_cons.mp hc with hc | hc
          · subst hc
            obtain ⟨new2, heq2, -, -⟩ := selectLoop_spec maxT b rest (cnt + 1)
              ⟨st.picked ++ [(ex, tk)], st.added ++ [ex.content], st.total + tk⟩
            rw [heq2]
            exact List.mem_append_left _ (List.mem_append_right _ (by simp))
          · exact hcov c hc

/-- Both selection folds only extend `picked` and `added`. -/
theorem foldl_sel_grow (maxT bnd : Nat) (pools : String → List (FewShotExample × Nat))
    (cntF : SelState → String → Nat) :
    ∀ (ls : List String) (st : SelState),
      ∃ tp ta,
        (ls.foldl (fun st2 l => selectLoop maxT bnd (pools l) (cntF st2 l) st2) st).picked
          = st.picked ++ tp ∧
        (ls.foldl (fun st2 l => selectLoop maxT bnd (pools l) (cntF st2 l) st2) st).added
          = st.added ++ ta := by
  intro ls
  induction ls with
  | nil => intro st; exact ⟨[], [], by simp, by simp⟩
  | cons l0 rest ihl =>
    intro st
    obtain ⟨new, heq, -, -⟩ := selectLoop_spec maxT bnd (pools l0) (cntF st l0) st
    obtain ⟨tp, ta, hp, ha⟩ := ihl (selectLoop maxT bnd (pools l0) (cntF st l0) st)
    refine ⟨new ++ tp, new.map (fun q => q.1.content) ++ ta, ?_, ?_⟩
    · rw [List.foldl_cons, hp, heq]
      simp [List.append_assoc]
    · rw [List.foldl_cons, ha, heq]
      simp [List.append_assoc]

theorem foldl_sel_grow1 (maxT bnd : Nat) (pools : String → List (FewShotExample × Nat)) :
    ∀ (ls : List String) (st : SelState),
      ∃ tp ta,
        (ls.foldl (fun st2 l => selectLoop maxT bnd (pools l) 0 st2) st).picked
          = st.picked ++ tp ∧
        (ls.foldl (fun st2 l => selectLoop maxT bnd (pools l) 0 st2) st).added
          = st.added ++ ta :=
  fun ls st => foldl_sel_grow maxT bnd pools (fun _ _ => 0) ls st

theorem foldl_sel_grow2 (maxT bnd : Nat) (pools : String → List (FewShotExample × Nat)) :
    ∀ (ls : List String) (st : SelState),
      ∃ tp ta,
        (ls.foldl (fun st2 l => selectLoop maxT bnd (pools l) (countLabel st2 l) st2) st).picked
          = st.picked ++ tp ∧
        (ls.foldl (fun st2 l => selectLoop maxT bnd (pools l) (countLabel st2 l) st2) st).added
          = st.added ++ ta :=
  fun ls st => foldl_sel_grow maxT bnd pools countLabel ls st

/-- The running total after a fold is bounded by the initial total plus the
costs of all processed pools. -/
theorem foldl_sel_total (maxT bnd : Nat) (pools : String → List (FewShotExample × Nat)) :
    ∀ (ls : List String) (st : SelState),
      (ls.foldl (fun st2 l => selectLoop maxT bnd (pools l) 0 st2) st).total ≤
        st.total + (ls.map (fun l => ((pools l).map (fun q => q.2)).sum)).sum := by
  intro ls
  induction ls with
  | nil => intro st; simp
  | cons l0 rest ihl =>
    intro st
    obtain ⟨new, heq, -, hsub⟩ := selectLoop_spec maxT bnd (pools l0) 0 st
    have hle : (new.map (fun q => q.2)).sum ≤ ((pools l0).map (fun q => q.2)).sum :=
      List.Sublist.sum_le_sum (List.Sublist.map (fun q => q.2) hsub)
        (fun a _ => Nat.zero_le a)
    have hstep : (selectLoop maxT bnd (pools l0) 0 st).total ≤
        st.total + ((pools l0).map (fun q => q.2)).sum := by
      rw [heq]
      show st.total + (new.map (fun q => q.2)).sum ≤ _
      omega
    have hrest := ihl (selectLoop maxT bnd (pools l0) 0 st)
    rw [List.foldl_cons]
    refine le_trans hrest ?_
    simp only [List.map_cons, List.sum_cons]
    omega

theorem length_filter_map {α β : Type _} (f : α → β) (p : β → Bool) :
    ∀ l : List α,
      ((l.map f).filter p).length = (l.filter (fun a => p (f a))).length := by
  intro l
  induction l with
  | nil => rfl
  | cons a t ih =>
    by_cases hpa : p (f a) = true
    · simp [List.filter_cons, hpa, ih]
    · simp [List.filter_cons, hpa, ih]

theorem count_ge_dedup (S cs : List String) (_hnd : cs.Nodup)
    (hsub : ∀ x ∈ S, x ∈ cs) :
    S.dedup.length ≤ (cs.filter (fun c => decide (c ∈ S))).length := by
  have hsp : List.Subperm S.dedup (cs.filter (fun c => decide (c ∈ S))) := by
    apply List.Nodup.subperm (List.nodup_dedup S)
    intro x hx
    have hxS : x ∈ S := List.mem_dedup.mp hx
    exact List.mem_filter.mpr ⟨hsub x hxS, by simpa using hxS⟩
  exact hsp.length_le

/-- The core of the per-label guarantee, stated at a state `stA` from which
label `L` is processed by the minimum pass within budget, and any final
state extending the result of that step. -/
theorem c6_main_aux (maxT minE : Nat)
    (pools : String → List (FewShotExample × Nat)) (L : String)
    (stA final : SelState)
    (hbA : stA.total + ((pools L).map (fun q => q.2)).sum ≤ maxT)
    (hext : ∃ tp ta,
      final.picked = (selectLoop maxT minE (pools L) 0 stA).picked ++ tp ∧
      final.added = (selectLoop maxT minE (pools L) 0 stA).added ++ ta)
    (hdi : DedupInv final) :
    min minE ((pools L).map (fun q => q.1.content)).dedup.length ≤
      (final.examples.filter
        (fun e => decide (e.content ∈ (pools L).map (fun q => q.1.content)))).length := by
  obtain ⟨tp, ta, hfp, hfa⟩ := hext
  have hmapc : final.examples.map (fun e => e.content) = final.added := by
    rw [hdi.1]
    simp [SelState.examples]
  have hconv : (final.examples.filter
      (fun e => decide (e.content ∈ (pools L).map (fun q => q.1.content)))).length =
      ((final.examples.map (fun e => e.content)).filter
        (fun c => decide (c ∈ (pools L).map (fun q => q.1.content)))).length :=
    (length_filter_map (fun e => e.content)
      (fun c => decide (c ∈ (pools L).map (fun q => q.1.content)))
      final.examples).symm
  rcases selectLoop_cover maxT minE (pools L) 0 stA hbA with ⟨new, hpk, hmem, hcnt⟩ | hcov
  · -- at least minE additions happened while processing L
    rw [hpk] at hfp
    have hexconv : (final.examples.filter
        (fun e => decide (e.content ∈ (pools L).map (fun q => q.1.content)))).length =
        (final.picked.filter
          (fun q => decide (q.1.content ∈ (pools L).map (fun q2 => q2.1.content)))).length := by
      show ((final.picked.map (fun q => q.1)).filter _).length = _
      exact length_filter_map (fun q => q.1)
        (fun e => decide (e.content ∈ (pools L).map (fun q2 => q2.1.content)))
        final.picked
    have hnewfull : new.filter
        (fun q => decide (q.1.content ∈ (pools L).map (fun q2 => q2.1.content))) = new :=
      List.filter_eq_self.mpr (fun q hq => by simpa using hmem q hq)
    have hlen : new.length ≤ (final.picked.filter
        (fun q => decide (q.1.content ∈ (pools L).map (fun q2 => q2.1.content)))).length := by
      rw [hfp, List.filter_append, List.filter_append, List.length_append,
        List.length_append, hnewfull]
      omega
    rw [hexconv]
    have hminle : min minE ((pools L).map (fun q => q.1.content)).dedup.length ≤ minE :=
      min_le_left _ _
    omega
  · -- the whole pool was walked: every pool content is a selected content
    have hsubS : ∀ x ∈ (pools L).map (fun q => q.1.content),
        x ∈ final.examples.map (fun e => e.content) := by
      intro x hx
      rw [hmapc, hfa]
      exact List.mem_append_left _ (hcov x hx)
    have hndcs : (final.examples.map (fun e => e.content)).Nodup := by
      rw [hmapc]
      exact hdi.2
    have hcount := count_ge_dedup ((pools L).map (fun q => q.1.content))
      (final.examples.map (fun e => e.content)) hndcs hsubS
    rw [hconv]
    exact le_trans (min_le_right _ _) hcount

/-- Claim C6 (amended) — whenever the total cost of every candidate over the
whole processing order fits in the budget together with the overhead, then
for every label `L` in the order the final selection contains at least
`min min_examples_per_label (number of distinct contents in L's pool)`
examples whose content occurs in L's candidate pool. (The original claim —
at least `min_examples_per_label` selected examples whose `labels` list
references L — fails when a candidate of L is skipped because its content
matches an already selected example that does not reference L.) -/
theorem c6_min_coverage (maxT minE maxE initTotal : Nat)
    (pools : String → List (FewShotExample × Nat)) (order : List String)
    (L : String) (hL : L ∈ order)
    (hbudget : initTotal +
      (order.map (fun l => ((pools l).map (fun q => q.2)).sum)).sum ≤ maxT) :
    min minE ((pools L).map (fun q => q.1.content)).dedup.length ≤
      ((selectExamples maxT minE maxE initTotal pools order).examples.filter
        (fun e => decide (e.content ∈ (pools L).map (fun q => q.1.content)))).length := by
  obtain ⟨o1, o2, rfl⟩ := List.append_of_mem hL
  refine c6_main_aux maxT minE pools L
    (o1.foldl (fun st l => selectLoop maxT minE (pools l) 0 st) ⟨[], [], initTotal⟩)
    (selectExamples maxT minE maxE initTotal pools (o1 ++ L :: o2)) ?_ ?_
    (dedupInv_selectExamples maxT minE maxE initTotal pools (o1 ++ L :: o2))
  · -- the budget suffices when L is reached
    have htotA := foldl_sel_total maxT minE pools o1 ⟨[], [], initTotal⟩
    have htotA2 : (o1.foldl (fun st l => selectLoop maxT minE (pools l) 0 st)
        ⟨[], [], initTotal⟩).total ≤
        initTotal + (o1.map (fun l => ((pools l).map (fun q => q.2)).sum)).sum := htotA
    rw [List.map_append, List.sum_append, List.map_cons, List.sum_cons] at hbudget
    omega
  · -- the final state extends the state right after L's minimum pass
    have hps : selectPass1 maxT minE initTotal pools (o1 ++ L :: o2) =
        o2.foldl (fun st l => selectLoop maxT minE (pools l) 0 st)
          (selectLoop maxT minE (pools L) 0
            (o1.foldl (fun st l => selectLoop maxT minE (pools l) 0 st)
              ⟨[], [], initTotal⟩)) := by
      unfold selectPass1
      rw [List.foldl_append, List.foldl_cons]
    obtain ⟨tp1, ta1, hp1, ha1⟩ := foldl_sel_grow1 maxT minE pools o2
      (selectLoop maxT minE (pools L) 0
        (o1.foldl (fun st l => selectLoop maxT minE (pools l) 0 st) ⟨[], [], initTotal⟩))
    by_cases hif : (selectPass1 maxT minE initTotal pools (o1 ++ L :: o2)).total < maxT
    · obtain ⟨tp2, ta2, hp2, ha2⟩ := foldl_sel_grow2 maxT maxE pools (o1 ++ L :: o2)
        (selectPass1 maxT minE initTotal pools (o1 ++ L :: o2))
      refine ⟨tp1 ++ tp2, ta1 ++ ta2, ?_, ?_⟩
      · unfold selectExamples
        rw [if_pos hif, hp2, hps, hp1, List.append_assoc]
      · unfold selectExamples
        rw [if_pos hif, ha2, hps, ha1, List.append_assoc]
    · refine ⟨tp1, ta1, ?_, ?_⟩
      · unfold selectExamples
        rw [if_neg hif, hps, hp1]
      · unfold selectExamples
        rw [if_neg hif, hps, ha1]

/-- Input pools for the C6 witness. -/
def wPools : String → List (FewShotExample × Nat) :=
  fun _ => [(⟨"x", ["A"], [["A"]]⟩, 1)]

theorem c6_witness :
    ("A" ∈ ["A"]) ∧
    (0 + (["A"].map (fun l => ((wPools l).map (fun q => q.2)).sum)).sum ≤ 100) ∧
    min 1 ((wPools "A").map (fun q => q.1.content)).dedup.length ≤
      ((selectExamples 100 1 1 0 wPools ["A"]).examples.filter
        (fun e => decide (e.content ∈ (wPools "A").map (fun q => q.1.content)))).length :=
  ⟨by decide, by decide,
   c6_min_coverage 100 1 1 0 wPools ["A"] "A" (by decide) (by decide)⟩

/-- The hierarchy and analyzed map of the C6 counterexample: two flat labels
A and B, holding different emails with identical content text. -/
def hC6 : LabelHierarchy :=
  buildHierarchy [("A_20240101.json", ["e1"]), ("B_20240101.json", ["e2"])]

def analyzedC6 : List (String × String) := [("e1", "x"), ("e2", "x")]

/-- Claim C6 (counterexample) — a full `generate_examples` run (identity
shuffle) on two labels A and B, where B's only candidate duplicates the
content of A's already selected candidate: B's pool has one accepted
candidate and the budget is ample, yet the final selection contains no
example referencing B. -/
theorem c6_starved_label :
    (generateExamples String.length (fun _ l => l) hC6 analyzedC6 1 none).map
      (fun st => ((st.examples.filter (fun e => e.labels.contains "B")).length,
        st.examples.length)) = .ok (0, 1) ∧
    (buildPools String.length MAX_TOKENS hC6 analyzedC6).map
      (fun ps => (ps.find? (fun p => p.1 = "B")).map (fun p => p.2.length)) =
      .ok (some 1) := by
  constructor <;> decide

/-! ## Claim C1: ancestor superset invariant -/

/-- Claim C1 — the ancestor superset invariant is violated by the code: after
inserting `LLM_RAG_20241222.json` with item `a` and then
`Other_RAG_20241223.json` with item `b`, the node `RAG` keeps its first
registered parent `LLM` and receives item `b`, but `LLM` never receives `b`,
so RAG's item set is not a subset of its parent's. -/
theorem c1_superset_violated :
    (lookupNode (buildHierarchy
        [("LLM_RAG_20241222.json", ["a"]), ("Other_RAG_20241223.json", ["b"])]) "RAG").map
      (fun n => n.parent) = some (some "LLM") ∧
    (lookupNode (buildHierarchy
        [("LLM_RAG_20241222.json", ["a"]), ("Other_RAG_20241223.json", ["b"])]) "RAG").map
      (fun n => n.email_ids.contains "b") = some true ∧
    (lookupNode (buildHierarchy
        [("LLM_RAG_20241222.json", ["a"]), ("Other_RAG_20241223.json", ["b"])]) "LLM").map
      (fun n => n.email_ids.contains "b") = some false := by
  decide

/-! ## Claim C9: format_example zip pairing -/

/-- Claim C9 — `format_example` renders exactly
`min (labels.length) (label_paths.length)` label lines because Python `zip`
stops at the shorter list; surplus label paths are silently dropped, and the
single-versus-hierarchical choice on a line is decided by the positionally
paired label, not by the path printed on that line (second conjunct: the
path `["LLM", "RAG"]` is paired with the single label `good_material`, so
the rendered line shows the single label and the path is never printed;
third conjunct: the surplus path `["B", "C"]` is never rendered). -/
theorem c9_zip_pairing :
    (∀ ex : FewShotExample,
      (labelLines ex).length = min ex.labels.length ex.label_paths.length) ∧
    formatExample ⟨"c", ["good_material"], [["LLM", "RAG"]]⟩ =
      "Content: c\nLabels:\n- good_material\n" ∧
    formatExample ⟨"c", ["A"], [["A"], ["B", "C"]]⟩ =
      "Content: c\nLabels:\n- A\n" := by
  refine ⟨fun ex => ?_, by decide, by decide⟩
  simp [labelLines]

/-! ## Claim C10: empty filename segments raise IndexError -/

theorem labelPartsOf_err (parts : List String) (hempty : "" ∈ parts) :
    labelPartsOf parts = .error "IndexError: string index out of range" := by
  induction parts with
  | nil => cases hempty
  | cons p rest ih =>
    match hp : p.data with
    | [] => simp [labelPartsOf, hp]
    | c :: cs =>
      have hpne : p ≠ "" := by
        intro h
        rw [h] at hp
        cases hp
      have hrest : "" ∈ rest := by
        rcases List.mem_cons.mp hempty with h | h
        · exact absurd h.symm hpne
        · exact h
      simp [labelPartsOf, hp, ih hrest]

/-- Claim C10 — whenever splitting the basename on underscores yields an
empty segment (consecutive, leading or trailing underscores),
`add_label_from_filename` raises `IndexError` from `part[0]` during the
digit-prefix filter, before any mutation. -/
theorem c10_empty_part_raises (h : LabelHierarchy) (filename : String)
    (ids : List String)
    (hempty : "" ∈ splitChar '_' (pyBasename filename)) :
    addLabelFromFilename h filename ids =
      .error "IndexError: string index out of range" := by
  simp [addLabelFromFilename, labelPartsOf_err _ hempty]

/-! ## Claim C3: generate_prompt and the token budget -/

/-- The example-appending loop of `generate_prompt` keeps its running token
total (preamble plus included example renderings with separators) within the
budget whenever the starting total is within the budget. -/
theorem c3_loop_within_budget (countF : String → Nat) (maxT : Nat) :
    ∀ (sampled : List FewShotExample) (prompt : String) (total : Nat),
      total ≤ maxT → (promptLoop countF maxT sampled prompt total).2 ≤ maxT := by
  intro sampled
  induction sampled with
  | nil => intro prompt total htot; simpa [promptLoop] using htot
  | cons ex rest ih =>
    intro prompt total htot
    by_cases h2 : maxT < total + countF (formatExample ex ++ "\n---\n\n")
    · simpa [promptLoop, h2] using htot
    · simp only [promptLoop, if_neg h2]
      exact ih _ _ (Nat.le_of_not_lt h2)

/-- Claim C3 (amended) — for every run of `generate_prompt` (any token
counter, budget, example set, requested count, and `random.sample` outcome
of the clamped size): the running token total of the preamble plus the
included example renderings never exceeds the budget when the preamble
alone fits; requesting more examples than available degrades gracefully —
the drawn sample has exactly `min num available` elements; and on a
non-empty example set the call returns normally rather than erroring,
producing the loop's prompt with the postamble appended after the
budget-guarded loop with no further check (hence the returned string itself
can exceed the budget, see the counterexample). -/
theorem c3_prompt_bound_and_clamp (countF : String → Nat) (maxT : Nat)
    (examples : List FewShotExample) (num : Nat)
    (sample : Nat → List FewShotExample)
    (hsample : IsSampleOf examples (clampNum examples.length num)
      (sample (clampNum examples.length num)))
    (hpre : countF promptPreamble ≤ maxT) :
    (promptLoop countF maxT (sample (clampNum examples.length num))
        promptPreamble (countF promptPreamble)).2 ≤ maxT ∧
    (sample (clampNum examples.length num)).length = min num examples.length ∧
    (examples ≠ [] →
      generatePrompt countF maxT examples num sample =
        .ok ((promptLoop countF maxT (sample (clampNum examples.length num))
          promptPreamble (countF promptPreamble)).1 ++ promptPostamble)) := by
  refine ⟨c3_loop_within_budget countF maxT _ _ _ hpre, ?_, ?_⟩
  · rw [hsample.1]
    unfold clampNum
    split <;> omega
  · intro hne
    unfold generatePrompt
    rw [if_neg (by simpa using hne)]

/-- A small example for the C3 witness, requested with `num = 5` while only
one example is available, exercising the clamp. -/
def smallEx : FewShotExample := ⟨"x", [], []⟩

theorem c3_witness :
    IsSampleOf [smallEx] (clampNum [smallEx].length 5) [smallEx] ∧
    String.length promptPreamble ≤ MAX_TOKENS ∧
    ((fun _ : Nat => [smallEx]) (clampNum [smallEx].length 5)).length =
      min 5 [smallEx].length :=
  ⟨⟨rfl, List.Subperm.refl _⟩, by decide,
   (c3_prompt_bound_and_clamp String.length MAX_TOKENS [smallEx] 5
      (fun _ => [smallEx]) ⟨rfl, List.Subperm.refl _⟩ (by decide)).2.1⟩

/-- A token counter charging one hundred tokens per character: a legal
instance of the external token-counting capability. -/
def coarseCount (s : String) : Nat := 100 * s.length

/-- A single selected example whose rendering fills the budget up to exactly
`MAX_TOKENS` together with the preamble (under `coarseCount`). -/
def bigEx : FewShotExample := ⟨String.mk (List.replicate 230 'a'), [], []⟩

set_option maxRecDepth 4000 in
/-- Claim C3 (counterexample) — a legal sample of one example yields a
returned prompt of 40700 tokens, above the configured budget of 32000: the
preamble plus the example fill the budget exactly, and the postamble is then
appended after the budget-guarded loop with no further check. -/
theorem c3_prompt_exceeds_budget :
    IsSampleOf [bigEx] (clampNum [bigEx].length 1) [bigEx] ∧
    (generatePrompt coarseCount MAX_TOKENS [bigEx] 1 (fun _ => [bigEx])).map
      coarseCount = .ok 40700 ∧
    MAX_TOKENS < 40700 := by
  refine ⟨⟨rfl, List.Subperm.refl _⟩, ?_, by decide⟩
  decide

/-! ## Claim C7: get_path_to_root returns the root-first path -/

/-- Any normal return of the parent walk extends the accumulated path into a
root-first parent chain: the result ends where the accumulator began, its
first element has a falsy parent link, and consecutive elements are linked
by `parentOf`. -/
theorem getPathLoop_ok (h : LabelHierarchy) :
    ∀ (fuel : Nat) (cur : String) (path r : List String),
      getPathLoop h fuel cur path = some (.ok r) →
      path ≠ [] → path.getLast? = some cur →
      List.Chain' (fun x y => parentOf h y x) path →
      r.getLast? = path.head? ∧
      (∀ x ∈ r.head?, ∃ n, lookupNode h x = some n ∧ optTruthy n.parent = none) ∧
      List.Chain' (parentOf h) r := by
  intro fuel
  induction fuel with
  | zero => intro cur path r hrun; exact absurd hrun (by simp [getPathLoop])
  | succ n ih =>
    intro cur path r hrun hne hlast hchain
    cases hl : lookupNode h cur with
    | none => simp [getPathLoop, hl] at hrun
    | some curN =>
      cases hp : optTruthy curN.parent with
      | none =>
        have hr : path.reverse = r := by simpa [getPathLoop, hl, hp] using hrun
        subst hr
        refine ⟨List.getLast?_reverse _, ?_, ?_⟩
        · intro x hx
          rw [List.head?_reverse] at hx
          rw [hlast] at hx
          cases hx
          exact ⟨curN, hl, hp⟩
        · rw [List.chain'_reverse]
          exact hchain
      | some p =>
        simp only [getPathLoop, hl, hp] at hrun
        have hext : List.Chain' (fun x y => parentOf h y x) (path ++ [p]) := by
          apply List.Chain'.append hchain (List.chain'_singleton p)
          intro x hx y hy
          rw [hlast] at hx
          cases hx
          cases hy
          exact ⟨curN, hl, hp⟩
        obtain ⟨h1, h2, h3⟩ := ih p (path ++ [p]) r hrun (by simp)
          (by simp) hext
        refine ⟨?_, h2, h3⟩
        rw [h1]
        cases path with
        | nil => exact absurd rfl hne
        | cons a t => simp

/-- Claim C7 — whenever `get_path_to_root(label)` returns, it returns the
empty list for an unknown label, and for a known label a root-first,
leaf-last parent chain ending at the label. -/
theorem c7_path_to_root (h : LabelHierarchy) (label : String) (fuel : Nat)
    (r : List String)
    (hrun : getPathToRootFuel h label fuel = some (.ok r)) :
    (hasNode h label = false → r = []) ∧
    (hasNode h label = true → IsRootPath h label r) := by
  constructor
  · intro hno
    unfold getPathToRootFuel at hrun
    rw [hno] at hrun
    simpa using hrun.symm
  · intro hyes
    unfold getPathToRootFuel at hrun
    rw [hyes] at hrun
    simp only [if_true] at hrun
    obtain ⟨h1, h2, h3⟩ := getPathLoop_ok h fuel label [label] r hrun (by simp)
      (by simp) (List.chain'_singleton label)
    exact ⟨by simpa using h1, h2, h3⟩

/-- The hierarchy built from the spec's worked example file. -/
def hC7 : LabelHierarchy :=
  buildHierarchy [("LLM_RAG_evaluation_20241222.json", ["a"])]

theorem c7_witness :
    getPathToRootFuel hC7 "evaluation" 4 = some (Except.ok ["LLM", "RAG", "evaluation"]) ∧
    getPathToRootFuel hC7 "unknown" 4 = some (Except.ok []) ∧
    IsRootPath hC7 "evaluation" ["LLM", "RAG", "evaluation"] :=
  ⟨by decide, by decide,
   (c7_path_to_root hC7 "evaluation" 4 ["LLM", "RAG", "evaluation"] (by decide)).2
     (by decide)⟩

/-! ## Claim C2: termination of get_path_to_root -/

/-- A handcrafted hierarchy state whose parent links form a two-cycle. -/
def cycHierarchy : LabelHierarchy :=
  ⟨[("A", ⟨"A", some "B", [], []⟩), ("B", ⟨"B", some "A", [], []⟩)], []⟩

theorem cyc_loop_none :
    ∀ (fuel : Nat) (name : String), (name = "A" ∨ name = "B") →
      ∀ path, getPathLoop cycHierarchy fuel name path = none := by
  intro fuel
  induction fuel with
  | zero => intro name hn path; rfl
  | succ n ih =>
    intro name hn path
    rcases hn with hn | hn
    · subst hn
      have hstep : getPathLoop cycHierarchy (n + 1) "A" path =
          getPathLoop cycHierarchy n "B" (path ++ ["B"]) := rfl
      rw [hstep]
      exact ih "B" (Or.inr rfl) _
    · subst hn
      have hstep : getPathLoop cycHierarchy (n + 1) "B" path =
          getPathLoop cycHierarchy n "A" (path ++ ["A"]) := rfl
      rw [hstep]
      exact ih "A" (Or.inl rfl) _

/-- Claim C2 (counterexample) — on a hierarchy state with a parent cycle the
walk of `get_path_to_root` never returns: the code has no revisit detection
and loops forever instead of failing. -/
theorem c2_cycle_diverges : ¬ Terminates cycHierarchy "A" := by
  rintro ⟨fuel, hsome⟩
  have hA : getPathToRootFuel cycHierarchy "A" fuel =
      getPathLoop cycHierarchy fuel "A" ["A"] := rfl
  rw [hA, cyc_loop_none fuel "A" (Or.inl rfl) ["A"]] at hsome
  cases hsome

/-! ## Hierarchy map lemmas -/

theorem find?_map_key (g : String × LabelNode → String × LabelNode)
    (hg : ∀ p, (g p).1 = p.1) (x : String) :
    ∀ l : List (String × LabelNode),
      (l.map g).find? (fun p => p.1 = x) = (l.find? (fun p => p.1 = x)).map g := by
  intro l
  induction l with
  | nil => rfl
  | cons a t ih =>
    by_cases hax : a.1 = x
    · simp [List.find?_cons, hg, hax]
    · simp [List.find?_cons, hg, hax, ih]

theorem lookup_update (h : LabelHierarchy) (k : String) (f : LabelNode → LabelNode)
    (x : String) :
    lookupNode (updateNode h k f) x =
      (lookupNode h x).map (fun v => if x = k then f v else v) := by
  unfold lookupNode updateNode
  rw [find?_map_key _ (by intro p; split <;> rfl) x]
  cases hf : h.nodes.find? (fun p => p.1 = x) with
  | none => rfl
  | some pr =>
    have hx : pr.1 = x := by simpa using List.find?_some hf
    subst hx
    by_cases hk : pr.1 = k <;> simp [hk]

theorem hasNode_update (h : LabelHierarchy) (k : String) (f : LabelNode → LabelNode)
    (x : String) : hasNode (updateNode h k f) x = hasNode h x := by
  unfold hasNode
  rw [lookup_update]
  cases lookupNode h x <;> rfl

theorem lookup_insert_of_has (h : LabelHierarchy) (k : String) (n : LabelNode)
    (x : String) (hx : hasNode h x = true) :
    lookupNode (insertNode h k n) x = lookupNode h x := by
  unfold hasNode at hx
  unfold lookupNode insertNode at *
  rw [List.find?_append]
  cases hf : h.nodes.find? (fun p => p.1 = x) with
  | none => rw [hf] at hx; simp at hx
  | some pr => simp [Option.or]

theorem hasNode_insert_mono (h : LabelHierarchy) (k : String) (n : LabelNode)
    (x : String) (hx : hasNode h x = true) :
    hasNode (insertNode h k n) x = true := by
  unfold hasNode
  rw [lookup_insert_of_has h k n x hx]
  exact hx

theorem lookup_insert_self (h : LabelHierarchy) (k : String) (n : LabelNode)
    (hk : hasNode h k = false) :
    lookupNode (insertNode h k n) k = some n := by
  unfold hasNode at hk
  unfold lookupNode insertNode at *
  rw [List.find?_append]
  cases hf : h.nodes.find? (fun p => p.1 = k) with
  | none => simp [Option.or, List.find?_cons]
  | some pr => rw [hf] at hk; simp at hk

theorem hasNode_insert_self (h : LabelHierarchy) (k : String) (n : LabelNode) :
    hasNode (insertNode h k n) k = true := by
  by_cases hk : hasNode h k = true
  · exact hasNode_insert_mono h k n k hk
  · unfold hasNode
    rw [lookup_insert_self h k n (by simpa using hk)]
    rfl

theorem hasNode_of_mem (h : LabelHierarchy) (p : String × LabelNode)
    (hp : p ∈ h.nodes) : hasNode h p.1 = true := by
  unfold hasNode lookupNode
  have hs : (h.nodes.find? (fun pr => pr.1 = p.1)).isSome = true :=
    List.find?_isSome.mpr ⟨p, hp, by simp⟩
  cases hf : h.nodes.find? (fun pr => pr.1 = p.1) with
  | none => rw [hf] at hs; cases hs
  | some pr => rfl

theorem lookup_mem (h : LabelHierarchy) (x : String) (v : LabelNode)
    (hl : lookupNode h x = some v) : (x, v) ∈ h.nodes := by
  unfold lookupNode at hl
  cases hf : h.nodes.find? (fun pr => pr.1 = x) with
  | none => rw [hf] at hl; cases hl
  | some pr =>
    rw [hf] at hl
    have hkey : pr.1 = x := by simpa using List.find?_some hf
    have hval : pr.2 = v := by simpa using hl
    have hmem := List.mem_of_find?_eq_some hf
    rw [← hkey, ← hval]
    simpa using hmem

theorem optTruthy_some_inv (o : Option String) (cp : String)
    (h : optTruthy o = some cp) : o = some cp := by
  cases o with
  | none => simp [optTruthy] at h
  | some s =>
    simp only [optTruthy] at h
    by_cases hs : s = ""
    · rw [if_pos hs] at h; cases h
    · rw [if_neg hs] at h; exact h

theorem lookup_congr (h1 h2 : LabelHierarchy) (hn : h1.nodes = h2.nodes)
    (x : String) : lookupNode h1 x = lookupNode h2 x := by
  unfold lookupNode
  rw [hn]

theorem hasNode_congr (h1 h2 : LabelHierarchy) (hn : h1.nodes = h2.nodes)
    (x : String) : hasNode h1 x = hasNode h2 x := by
  unfold hasNode
  rw [lookup_congr h1 h2 hn]

/-! ## Claim C2 (amended): reachable hierarchies have acyclic parent links -/

/-- A rank function witnessing acyclicity: along every truthy parent link the
rank strictly decreases, and parents exist. -/
def ParentsRanked (h : LabelHierarchy) (rank : String → Nat) : Prop :=
  ∀ p ∈ h.nodes, ∀ q, optTruthy p.2.parent = some q →
    hasNode h q = true ∧ rank q < rank p.1

def WellRanked (h : LabelHierarchy) : Prop := ∃ rank, ParentsRanked h rank

theorem parentsRanked_congr (h1 h2 : LabelHierarchy) (hn : h1.nodes = h2.nodes)
    (rank : String → Nat) (hr : ParentsRanked h1 rank) : ParentsRanked h2 rank := by
  intro p hp q hq
  rw [← hn] at hp
  obtain ⟨h1q, h2q⟩ := hr p hp q hq
  refine ⟨?_, h2q⟩
  unfold hasNode at *
  rw [← lookup_congr h1 h2 hn]
  exact h1q

theorem parentsRanked_update (h : LabelHierarchy) (k : String)
    (f : LabelNode → LabelNode) (hf : ∀ v, (f v).parent = v.parent)
    (rank : String → Nat) (hr : ParentsRanked h rank) :
    ParentsRanked (updateNode h k f) rank := by
  intro p hp q hq
  obtain ⟨p0, hp0, rfl⟩ := List.mem_map.mp hp
  have hkey : (if p0.1 = k then (p0.1, f p0.2) else p0).1 = p0.1 := by
    split <;> rfl
  have hpar : optTruthy (if p0.1 = k then (p0.1, f p0.2) else p0).2.parent =
      optTruthy p0.2.parent := by
    split <;> simp [hf]
  rw [hpar] at hq
  obtain ⟨hq1, hq2⟩ := hr p0 hp0 q hq
  rw [hkey]
  exact ⟨by rw [hasNode_update]; exact hq1, hq2⟩

theorem wellRanked_update (h : LabelHierarchy) (k : String)
    (f : LabelNode → LabelNode) (hf : ∀ v, (f v).parent = v.parent)
    (hw : WellRanked h) : WellRanked (updateNode h k f) := by
  obtain ⟨rank, hr⟩ := hw
  exact ⟨rank, parentsRanked_update h k f hf rank hr⟩

theorem parentsRanked_insert (h : LabelHierarchy) (k : String) (n : LabelNode)
    (hk : hasNode h k = false)
    (hpar : ∀ q, optTruthy n.parent = some q → hasNode h q = true)
    (rank : String → Nat) (hr : ParentsRanked h rank) :
    ParentsRanked (insertNode h k n)
      (fun x => if x = k then
        (match optTruthy n.parent with
         | some cp => rank cp + 1
         | none => 0)
        else rank x) := by
  have hne : ∀ (x : String), hasNode h x = true → x ≠ k := by
    intro x hx hxk
    rw [hxk, hk] at hx
    cases hx
  intro p hp q hq
  rcases List.mem_append.mp hp with hp | hp
  · obtain ⟨hq1, hq2⟩ := hr p hp q hq
    have hqk : q ≠ k := hne q hq1
    have hpk : p.1 ≠ k := hne p.1 (hasNode_of_mem h p hp)
    refine ⟨hasNode_insert_mono h k n q hq1, ?_⟩
    simp only [if_neg hqk, if_neg hpk]
    exact hq2
  · have hpn : p = (k, n) := by simpa using hp
    subst hpn
    have hq1 : hasNode h q = true := hpar q hq
    have hqk : q ≠ k := hne q hq1
    refine ⟨hasNode_insert_mono h k n q hq1, ?_⟩
    simp only [if_neg hqk, if_pos rfl, hq]
    exact Nat.lt_succ_self _

theorem wellRanked_insert (h : LabelHierarchy) (k : String) (n : LabelNode)
    (hk : hasNode h k = false)
    (hpar : ∀ q, optTruthy n.parent = some q → hasNode h q = true)
    (hw : WellRanked h) : WellRanked (insertNode h k n) := by
  obtain ⟨rank, hr⟩ := hw
  exact ⟨_, parentsRanked_insert h k n hk hpar rank hr⟩

/-- The invariant carried through the per-part loop of
`add_label_from_filename`: the hierarchy is acyclic and the pending parent
name is a present node. -/
def AddInv (st : AddState) : Prop :=
  WellRanked st.h ∧
  ∀ cp, optTruthy st.current_parent = some cp → hasNode st.h cp = true

theorem foldl_emailUpd_wellRanked (ids : List String) :
    ∀ (ls : List String) (h : LabelHierarchy), WellRanked h →
      WellRanked (ls.foldl (emailUpd ids) h) :=
  fun ls h hw => foldl_preserve WellRanked (emailUpd ids)
    (fun h2 l hw2 => wellRanked_update h2 l _ (fun _ => rfl) hw2) ls h hw

theorem foldl_emailUpd_hasNode (ids : List String) (x : String) :
    ∀ (ls : List String) (h : LabelHierarchy), hasNode h x = true →
      hasNode (ls.foldl (emailUpd ids) h) x = true :=
  fun ls h hx => foldl_preserve (fun h2 => hasNode h2 x = true) (emailUpd ids)
    (fun h2 l hx2 => by
      show hasNode (updateNode h2 l _) x = true
      rw [hasNode_update]
      exact hx2) ls h hx

theorem addPartH1_wellRanked (st : AddState) (clean : String)
    (hw : WellRanked st.h)
    (hcp : ∀ cp, optTruthy st.current_parent = some cp → hasNode st.h cp = true) :
    WellRanked (addPartH1 st clean) := by
  unfold addPartH1
  by_cases hhas : hasNode st.h clean = true
  · rw [if_pos hhas]
    exact hw
  · rw [if_neg hhas]
    have hhasf : hasNode st.h clean = false := by simpa using hhas
    have hIns : WellRanked (insertNode st.h clean (newNode st clean)) := by
      apply wellRanked_insert st.h clean (newNode st clean) hhasf ?_ hw
      intro q hq
      exact hcp q hq
    split
    · rename_i cp0 hpt
      apply wellRanked_update _ _ _ ?_ hIns
      intro v
      split <;> rfl
    · rename_i hpt
      split
      · exact hIns
      · obtain ⟨rank, hr⟩ := hIns
        exact ⟨rank, parentsRanked_congr _ _ rfl rank hr⟩

theorem addPartH1_hasNode (st : AddState) (clean : String) :
    hasNode (addPartH1 st clean) clean = true := by
  unfold addPartH1
  by_cases hhas : hasNode st.h clean = true
  · rw [if_pos hhas]
    exact hhas
  · rw [if_neg hhas]
    have hInsHas : hasNode (insertNode st.h clean (newNode st clean)) clean = true :=
      hasNode_insert_self st.h clean _
    split
    · rename_i cp0 hpt
      rw [hasNode_update]
      exact hInsHas
    · rename_i hpt
      split
      · exact hInsHas
      · rw [hasNode_congr _ _ rfl clean]
        exact hInsHas

theorem addInv_addPart (ids : List String) (st : AddState) (part : String)
    (hinv : AddInv st) : AddInv (addPart ids st part) := by
  obtain ⟨hw, hcp⟩ := hinv
  constructor
  · show WellRanked ((st.current_path ++ [stripExt part]).foldl (emailUpd ids)
      (addPartH1 st (stripExt part)))
    exact foldl_emailUpd_wellRanked ids _ _ (addPartH1_wellRanked st _ hw hcp)
  · intro cp hcp2
    have hinj : (some (stripExt part) : Option String) = some cp :=
      optTruthy_some_inv _ cp hcp2
    have hcpe : cp = stripExt part := (Option.some.inj hinj).symm
    subst hcpe
    show hasNode ((st.current_path ++ [stripExt part]).foldl (emailUpd ids)
      (addPartH1 st (stripExt part))) (stripExt part) = true
    exact foldl_emailUpd_hasNode ids _ _ _ (addPartH1_hasNode st _)

theorem wellRanked_add (h : LabelHierarchy) (f : String) (ids : List String)
    (h2 : LabelHierarchy) (hw : WellRanked h)
    (hok : addLabelFromFilename h f ids = .ok h2) : WellRanked h2 := by
  unfold addLabelFromFilename at hok
  cases hlp : labelPartsOf (splitChar '_' (pyBasename f)) with
  | error e =>
    simp only [hlp] at hok
    exact Except.noConfusion hok
  | ok lp =>
    simp only [hlp] at hok
    by_cases hc : combinedLabel lp ∈ single_labels
    · rw [if_pos hc] at hok
      by_cases hhas : hasNode h (combinedLabel lp) = true
      · rw [if_pos hhas] at hok
        obtain rfl : _ = h2 := Except.ok.inj hok
        exact wellRanked_update h _ _ (fun _ => rfl) hw
      · rw [if_neg hhas] at hok
        obtain rfl : _ = h2 := Except.ok.inj hok
        have hIns := wellRanked_insert h (combinedLabel lp)
          ⟨combinedLabel lp, none, [], setUnion [] ids⟩ (by simpa using hhas)
          (by intro q hq; cases hq) hw
        obtain ⟨rank, hr⟩ := hIns
        exact ⟨rank, parentsRanked_congr _ _ rfl rank hr⟩
    · rw [if_neg hc] at hok
      obtain rfl : _ = h2 := Except.ok.inj hok
      have hinv : AddInv (lp.foldl (addPart ids) ⟨h, none, []⟩) :=
        foldl_preserve AddInv (addPart ids)
          (fun st part hst => addInv_addPart ids st part hst) lp
          ⟨h, none, []⟩ ⟨hw, fun cp hcp => by cases hcp⟩
      exact hinv.1

/-- Termination of the ranked walk: fuel one more than the rank suffices. -/
theorem getPathLoop_ranked (h : LabelHierarchy) (rank : String → Nat)
    (hr : ParentsRanked h rank) :
    ∀ (r : Nat) (name : String), rank name ≤ r →
      ∀ path, (getPathLoop h (r + 1) name path).isSome = true := by
  intro r
  induction r with
  | zero =>
    intro name h0 path
    cases hl : lookupNode h name with
    | none => simp [getPathLoop, hl]
    | some cur =>
      cases hp : optTruthy cur.parent with
      | none => simp [getPathLoop, hl, hp]
      | some p =>
        exfalso
        obtain ⟨-, hlt⟩ := hr (name, cur) (lookup_mem h name cur hl) p hp
        have hlt2 : rank p < rank name := hlt
        omega
  | succ m ih =>
    intro name hle path
    cases hl : lookupNode h name with
    | none => simp [getPathLoop, hl]
    | some cur =>
      cases hp : optTruthy cur.parent with
      | none => simp [getPathLoop, hl, hp]
      | some p =>
        obtain ⟨-, hlt⟩ := hr (name, cur) (lookup_mem h name cur hl) p hp
        have hlt2 : rank p < rank name := hlt
        have hple : rank p ≤ m := by omega
        have := ih p hple (path ++ [p])
        simpa [getPathLoop, hl, hp] using this

theorem wellRanked_terminates (h : LabelHierarchy) (hw : WellRanked h)
    (label : String) : Terminates h label := by
  obtain ⟨rank, hr⟩ := hw
  by_cases hn : hasNode h label = true
  · refine ⟨rank label + 1, ?_⟩
    unfold getPathToRootFuel
    rw [if_pos hn]
    exact getPathLoop_ranked h rank hr (rank label) label le_rfl [label]
  · refine ⟨1, ?_⟩
    unfold getPathToRootFuel
    rw [if_neg hn]
    rfl

/-- Claim C2 (amended) — on every hierarchy actually constructed by
`add_label_from_filename` calls (as `build_label_hierarchy` does) the parent
links are acyclic and `get_path_to_root` terminates for every label. -/
theorem c2_reachable_terminates (ops : List (String × List String))
    (label : String) : Terminates (buildHierarchy ops) label := by
  apply wellRanked_terminates
  unfold buildHierarchy
  refine foldl_preserve WellRanked _ ?_ ops emptyHierarchy
    ⟨fun _ => 0, by intro p hp; cases hp⟩
  intro h op hw
  cases hok : addLabelFromFilename h op.1 op.2 with
  | ok h2 => exact wellRanked_add h op.1 op.2 h2 hw hok
  | error e => exact hw

/-! ## Claim C8: idempotence of add_label_from_filename -/

theorem setUnion_mem_mono (ids : List String) :
    ∀ (l : List String) (i : String), i ∈ l → i ∈ setUnion l ids := by
  induction ids with
  | nil => intro l i hi; exact hi
  | cons i0 rest ih =>
    intro l i hi
    show i ∈ setUnion (if i0 ∈ l then l else l ++ [i0]) rest
    apply ih
    split
    · exact hi
    · exact List.mem_append_left _ hi

theorem setUnion_mem_of_mem (ids : List String) :
    ∀ (l : List String) (i : String), i ∈ ids → i ∈ setUnion l ids := by
  induction ids with
  | nil => intro l i hi; cases hi
  | cons i0 rest ih =>
    intro l i hi
    show i ∈ setUnion (if i0 ∈ l then l else l ++ [i0]) rest
    rcases List.mem_cons.mp hi with hi | hi
    · subst hi
      apply setUnion_mem_mono
      split
      · assumption
      · exact List.mem_append_right _ (List.mem_singleton.mpr rfl)
    · exact ih _ i hi

theorem setUnion_eq_self (ids : List String) :
    ∀ (l : List String), (∀ i ∈ ids, i ∈ l) → setUnion l ids = l := by
  induction ids with
  | nil => intro l _; rfl
  | cons i0 rest ih =>
    intro l hsub
    show setUnion (if i0 ∈ l then l else l ++ [i0]) rest = l
    rw [if_pos (hsub i0 (List.mem_cons_self _ _))]
    exact ih l (fun i hi => hsub i (List.mem_cons_of_mem _ hi))

theorem updateNode_id (h : LabelHierarchy) (k : String) (f : LabelNode → LabelNode)
    (hf : ∀ p ∈ h.nodes, p.1 = k → f p.2 = p.2) : updateNode h k f = h := by
  unfold updateNode
  have hmap : h.nodes.map (fun p => if p.1 = k then (p.1, f p.2) else p) = h.nodes := by
    have := List.map_congr_left (l := h.nodes)
      (f := fun p => if p.1 = k then (p.1, f p.2) else p) (g := id) ?_
    · rw [this, List.map_id]
    · intro p hp
      show (if p.1 = k then (p.1, f p.2) else p) = p
      by_cases hk : p.1 = k
      · rw [if_pos hk, hf p hp hk]
      · rw [if_neg hk]
  rw [hmap]

/-- Every entry stored under `key` already contains all of `ids`. -/
def EntriesHave (h : LabelHierarchy) (key : String) (ids : List String) : Prop :=
  ∀ p ∈ h.nodes, p.1 = key → ∀ i ∈ ids, i ∈ p.2.email_ids

theorem emailUpd_id (ids : List String) (h : LabelHierarchy) (lbl : String)
    (he : EntriesHave h lbl ids) : emailUpd ids h lbl = h := by
  apply updateNode_id
  intro p hp hkey
  rw [setUnion_eq_self ids _ (he p hp hkey)]

theorem foldl_emailUpd_id (ids : List String) :
    ∀ (ls : List String) (h : LabelHierarchy), (∀ l ∈ ls, EntriesHave h l ids) →
      ls.foldl (emailUpd ids) h = h := by
  intro ls
  induction ls with
  | nil => intro h _; rfl
  | cons l0 rest ih =>
    intro h hls
    rw [List.foldl_cons, emailUpd_id ids h l0 (hls l0 (List.mem_cons_self _ _))]
    exact ih h (fun l hl => hls l (List.mem_cons_of_mem _ hl))

theorem EntriesHave_update (h : LabelHierarchy) (k : String)
    (f : LabelNode → LabelNode) (x : String) (ids : List String)
    (hf : ∀ v i, i ∈ v.email_ids → i ∈ (f v).email_ids)
    (he : EntriesHave h x ids) : EntriesHave (updateNode h k f) x ids := by
  intro p hp hkey i hi
  obtain ⟨p0, hp0, rfl⟩ := List.mem_map.mp hp
  by_cases hk : p0.1 = k
  · rw [if_pos hk] at hkey ⊢
    exact hf p0.2 i (he p0 hp0 hkey i hi)
  · rw [if_neg hk] at hkey ⊢
    exact he p0 hp0 hkey i hi

theorem EntriesHave_insert (h : LabelHierarchy) (k : String) (n : LabelNode)
    (x : String) (ids : List String) (hkx : k ≠ x)
    (he : EntriesHave h x ids) : EntriesHave (insertNode h k n) x ids := by
  intro p hp hkey i hi
  rcases List.mem_append.mp hp with hp | hp
  · exact he p hp hkey i hi
  · have : p = (k, n) := by simpa using hp
    subst this
    exact absurd hkey hkx

theorem EntriesHave_congr (h1 h2 : LabelHierarchy) (hn : h1.nodes = h2.nodes)
    (x : String) (ids : List String) (he : EntriesHave h1 x ids) :
    EntriesHave h2 x ids := by
  intro p hp hkey i hi
  rw [← hn] at hp
  exact he p hp hkey i hi

theorem EntriesHave_emailUpd_self (ids : List String) (h : LabelHierarchy)
    (lbl : String) : EntriesHave (emailUpd ids h lbl) lbl ids := by
  intro p hp hkey i hi
  obtain ⟨p0, hp0, rfl⟩ := List.mem_map.mp hp
  by_cases hk : p0.1 = lbl
  · rw [if_pos hk]
    exact setUnion_mem_of_mem ids _ i hi
  · rw [if_neg hk] at hkey
    exact absurd hkey hk

theorem foldl_emailUpd_entries (ids : List String) (x : String) :
    ∀ (ls : List String) (h : LabelHierarchy), EntriesHave h x ids →
      EntriesHave (ls.foldl (emailUpd ids) h) x ids :=
  fun ls h he => foldl_preserve (fun h2 => EntriesHave h2 x ids) (emailUpd ids)
    (fun h2 l he2 =>
      EntriesHave_update h2 l _ x ids
        (fun v i hi => setUnion_mem_mono ids v.email_ids i hi) he2) ls h he

theorem foldl_emailUpd_have (ids : List String) (x : String) :
    ∀ (ls : List String) (h : LabelHierarchy), x ∈ ls →
      EntriesHave (ls.foldl (emailUpd ids) h) x ids := by
  intro ls
  induction ls with
  | nil => intro h hx; cases hx
  | cons l0 rest ih =>
    intro h hx
    rcases List.mem_cons.mp hx with hx | hx
    · subst hx
      rw [List.foldl_cons]
      exact foldl_emailUpd_entries ids x rest _ (EntriesHave_emailUpd_self ids h x)
    · exact ih (emailUpd ids h l0) hx

theorem addPartH1_keep (st : AddState) (clean x : String) (ids : List String)
    (hx : hasNode st.h x = true) (he : EntriesHave st.h x ids) :
    hasNode (addPartH1 st clean) x = true ∧
      EntriesHave (addPartH1 st clean) x ids := by
  unfold addPartH1
  by_cases hhas : hasNode st.h clean = true
  · rw [if_pos hhas]
    exact ⟨hx, he⟩
  · rw [if_neg hhas]
    have hcx : clean ≠ x := by
      intro hcx
      rw [hcx, hx] at hhas
      exact hhas rfl
    have hInsHas : hasNode (insertNode st.h clean (newNode st clean)) x = true :=
      hasNode_insert_mono st.h clean _ x hx
    have hInsHave : EntriesHave (insertNode st.h clean (newNode st clean)) x ids :=
      EntriesHave_insert st.h clean _ x ids hcx he
    split
    · rename_i cp0 hpt
      constructor
      · rw [hasNode_update]
        exact hInsHas
      · exact EntriesHave_update _ cp0 _ x ids (fun _ i hi => by
          split
          · exact hi
          · exact hi) hInsHave
    · rename_i hpt
      split
      · exact ⟨hInsHas, hInsHave⟩
      · constructor
        · rw [hasNode_congr _ _ rfl x]
          exact hInsHas
        · exact EntriesHave_congr _ _ rfl x ids hInsHave

theorem addPart_keep (ids : List String) (x : String) (st : AddState) (part : String)
    (hx : hasNode st.h x = true) (he : EntriesHave st.h x ids) :
    hasNode (addPart ids st part).h x = true ∧
      EntriesHave (addPart ids st part).h x ids := by
  obtain ⟨h1, h2⟩ := addPartH1_keep st (stripExt part) x ids hx he
  constructor
  · exact foldl_emailUpd_hasNode ids x _ _ h1
  · exact foldl_emailUpd_entries ids x _ _ h2

/-- `hasNode` of the freshly processed part after its own `addPart` step. -/
theorem addPart_hasNode_self (ids : List String) (st : AddState) (part : String) :
    hasNode (addPart ids st part).h (stripExt part) = true :=
  foldl_emailUpd_hasNode ids _ _ _ (addPartH1_hasNode st _)

theorem addPart_have_self (ids : List String) (st : AddState) (part : String) :
    EntriesHave (addPart ids st part).h (stripExt part) ids := by
  apply foldl_emailUpd_have
  exact List.mem_append_right _ (List.mem_singleton.mpr rfl)

/-- The postcondition of one full hierarchical pass: every processed part is
registered and all its stored entries contain the supplied ids. -/
def PartsDone (h : LabelHierarchy) (ids : List String) (parts : List String) : Prop :=
  ∀ p ∈ parts, hasNode h (stripExt p) = true ∧ EntriesHave h (stripExt p) ids

theorem fold_post (ids : List String) :
    ∀ (parts : List String) (st : AddState),
      PartsDone ((parts.foldl (addPart ids) st).h) ids parts := by
  intro parts
  induction parts with
  | nil => intro st p hp; cases hp
  | cons p0 rest ih =>
    intro st q hq
    rw [List.foldl_cons]
    rcases List.mem_cons.mp hq with hq | hq
    · subst hq
      have hbase : hasNode (addPart ids st q).h (stripExt q) = true ∧
          EntriesHave (addPart ids st q).h (stripExt q) ids :=
        ⟨addPart_hasNode_self ids st q, addPart_have_self ids st q⟩
      exact foldl_preserve
        (fun st2 => hasNode st2.h (stripExt q) = true ∧
          EntriesHave st2.h (stripExt q) ids)
        (addPart ids)
        (fun st2 part hst2 => addPart_keep ids (stripExt q) st2 part hst2.1 hst2.2)
        rest _ hbase
    · exact ih (addPart ids st p0) q hq

theorem fold_id (ids : List String) :
    ∀ (parts : List String) (st : AddState),
      (∀ p ∈ parts, hasNode st.h (stripExt p) = true) →
      (∀ p ∈ parts, EntriesHave st.h (stripExt p) ids) →
      (∀ l ∈ st.current_path, EntriesHave st.h l ids) →
      (parts.foldl (addPart ids) st).h = st.h := by
  intro parts
  induction parts with
  | nil => intro st _ _ _; rfl
  | cons p0 rest ih =>
    intro st hhas hhave hpath
    have hp0 : hasNode st.h (stripExt p0) = true := hhas p0 (List.mem_cons_self _ _)
    have h1 : addPartH1 st (stripExt p0) = st.h := by
      unfold addPartH1
      rw [if_pos hp0]
    have hpath2 : ∀ l ∈ st.current_path ++ [stripExt p0], EntriesHave st.h l ids := by
      intro l hl
      rcases List.mem_append.mp hl with hl | hl
      · exact hpath l hl
      · have : l = stripExt p0 := List.mem_singleton.mp hl
        subst this
        exact hhave p0 (List.mem_cons_self _ _)
    have h2 : (st.current_path ++ [stripExt p0]).foldl (emailUpd ids) st.h = st.h :=
      foldl_emailUpd_id ids _ st.h hpath2
    have heq : addPart ids st p0 =
        ⟨st.h, some (stripExt p0), st.current_path ++ [stripExt p0]⟩ := by
      unfold addPart
      rw [h1, h2]
    rw [List.foldl_cons, heq]
    exact ih ⟨st.h, some (stripExt p0), st.current_path ++ [stripExt p0]⟩
      (fun p hp => hhas p (List.mem_cons_of_mem _ hp))
      (fun p hp => hhave p (List.mem_cons_of_mem _ hp))
      hpath2

/-- Claim C8 — `add_label_from_filename` is idempotent: repeating a
successful call with the same filename and ids returns exactly the same
hierarchy (same node map — names, parents, children, email-id sets — and
same root-label list). -/
theorem c8_idempotent (h : LabelHierarchy) (filename : String)
    (ids : List String) (h2 : LabelHierarchy)
    (hok : addLabelFromFilename h filename ids = .ok h2) :
    addLabelFromFilename h2 filename ids = .ok h2 := by
  unfold addLabelFromFilename at hok ⊢
  cases hlp : labelPartsOf (splitChar '_' (pyBasename filename)) with
  | error e =>
    simp only [hlp] at hok
    exact Except.noConfusion hok
  | ok lp =>
    simp only [hlp] at hok ⊢
    by_cases hc : combinedLabel lp ∈ single_labels
    · rw [if_pos hc] at hok ⊢
      by_cases hhas : hasNode h (combinedLabel lp) = true
      · rw [if_pos hhas] at hok
        obtain rfl : _ = h2 := Except.ok.inj hok
        have h2has : hasNode (updateNode h (combinedLabel lp)
            (fun n => { n with email_ids := setUnion n.email_ids ids }))
            (combinedLabel lp) = true := by
          rw [hasNode_update]
          exact hhas
        rw [if_pos h2has]
        show Except.ok (emailUpd ids (emailUpd ids h (combinedLabel lp))
          (combinedLabel lp)) = _
        rw [emailUpd_id ids _ _ (EntriesHave_emailUpd_self ids h (combinedLabel lp))]
        rfl
      · rw [if_neg hhas] at hok
        obtain rfl : _ = h2 := Except.ok.inj hok
        have hhasf : hasNode h (combinedLabel lp) = false := by simpa using hhas
        have hcg : hasNode
            { insertNode h (combinedLabel lp)
                ⟨combinedLabel lp, none, [], setUnion [] ids⟩ with
              root_labels := h.root_labels ++ [combinedLabel lp] }
            (combinedLabel lp) =
            hasNode (insertNode h (combinedLabel lp)
              ⟨combinedLabel lp, none, [], setUnion [] ids⟩) (combinedLabel lp) :=
          hasNode_congr _ _ rfl _
        have h2has : hasNode
            { insertNode h (combinedLabel lp)
                ⟨combinedLabel lp, none, [], setUnion [] ids⟩ with
              root_labels := h.root_labels ++ [combinedLabel lp] }
            (combinedLabel lp) = true := by
          rw [hcg]
          exact hasNode_insert_self _ _ _
        rw [if_pos h2has]
        have hent : EntriesHave
            { insertNode h (combinedLabel lp)
                ⟨combinedLabel lp, none, [], setUnion [] ids⟩ with
              root_labels := h.root_labels ++ [combinedLabel lp] }
            (combinedLabel lp) ids := by
          intro p hp hkey i hi
          rcases List.mem_append.mp hp with hp | hp
          · exfalso
            unfold hasNode lookupNode at hhasf
            have hnone : h.nodes.find? (fun pr => pr.1 = combinedLabel lp) = none := by
              cases hf : h.nodes.find? (fun pr => pr.1 = combinedLabel lp) with
              | none => rfl
              | some pr => rw [hf] at hhasf; cases hhasf
            have := List.find?_eq_none.mp hnone p hp
            simp [hkey] at this
          · have : p = (combinedLabel lp,
                ⟨combinedLabel lp, none, [], setUnion [] ids⟩) := by simpa using hp
            subst this
            exact setUnion_mem_of_mem ids [] i hi
        show Except.ok (emailUpd ids _ (combinedLabel lp)) = _
        rw [emailUpd_id ids _ _ hent]
    · rw [if_neg hc] at hok ⊢
      obtain rfl : _ = h2 := Except.ok.inj hok
      have hpost := fold_post ids lp ⟨h, none, []⟩
      have hid := fold_id ids lp
        ⟨(lp.foldl (addPart ids) ⟨h, none, []⟩).h, none, []⟩
        (fun p hp => (hpost p hp).1)
        (fun p hp => (hpost p hp).2)
        (by intro l hl; cases hl)
      rw [hid]

/-- The hierarchy produced by one insertion of `LLM_RAG_20241222.json`. -/
def h8 : LabelHierarchy :=
  ⟨[("LLM", ⟨"LLM", none, ["RAG"], ["a"]⟩),
    ("RAG", ⟨"RAG", some "LLM", [], ["a"]⟩)], ["LLM"]⟩

theorem c8_witness :
    addLabelFromFilename emptyHierarchy "LLM_RAG_20241222.json" ["a"] = .ok h8 ∧
    addLabelFromFilename h8 "LLM_RAG_20241222.json" ["a"] = .ok h8 :=
  ⟨by decide,
   c8_idempotent emptyHierarchy "LLM_RAG_20241222.json" ["a"] h8 (by decide)⟩

theorem c10_witness :
    ("" ∈ splitChar '_' (pyBasename "a__b.json")) ∧
    addLabelFromFilename emptyHierarchy "a__b.json" ["x"] =
      .error "IndexError: string index out of range" :=
  ⟨by decide, c10_empty_part_raises emptyHierarchy "a__b.json" ["x"] (by decide)⟩
